import Mathlib

/-!
A verification development for the samuraizer-rust filesystem traversal and
content-inspection engine.  Each definition is a shallow embedding of the
corresponding Rust item (file and symbol named in its doc comment); theorems
settle the specification claims against these definitions.

Conventions of the embedding:
* bytes are `Nat` values in `[0, 255]`; file contents are `List Nat`;
* `serde_json::Value` is embedded as the inductive `Json` below (object key
  order is immaterial: all observations go through key lookup);
* machine integers (`u64`/`usize`) are `Nat` with explicit `% 2^64` where
  overflow can occur (the xxHash64 core);
* fallible Rust functions returning `Result<T, NativeError>` become
  `Except NativeError T`;
* calls into external crates (`infer`, `mime_guess`, `encoding_rs`, `chrono`,
  `base64`) are modelled as explicit oracle fields or small concrete stand-ins,
  marked in their doc comments; no claim observes their output values.
-/

namespace Samuraizer

/-- Embedding of `serde_json::Value` (numbers are restricted to the `Nat`
values the engine actually stores; floating-point fields such as `mtime`
are carried as their integral second count, which no claim observes). -/
inductive Json where
  | null : Json
  | bool (b : Bool) : Json
  | nat (n : Nat) : Json
  | str (s : String) : Json
  | arr (xs : List Json) : Json
  | obj (kvs : List (String × Json)) : Json

/-- Association-list lookup used to observe `Json.obj` values
(`serde_json::Map::get`). -/
def lookupStr : List (String × Json) → String → Option Json
  | [], _ => none
  | (k0, v0) :: rest, k => if k0 = k then some v0 else lookupStr rest k

/-- `Value::get(key)` on an object; `none` on any other variant. -/
def getKey : Json → String → Option Json
  | Json.obj kvs, k => lookupStr kvs k
  | _, _ => none

/-- Whether a JSON object carries the given key. -/
def hasKey (j : Json) (k : String) : Bool :=
  (getKey j k).isSome

/-- `Value::get(key).and_then(Value::as_str)`. -/
def getStr (j : Json) (k : String) : Option String :=
  match getKey j k with
  | some (Json.str s) => some s
  | _ => none

/-- `Value::get(key).and_then(Value::as_u64)`-style observation. -/
def getNat (j : Json) (k : String) : Option Nat :=
  match getKey j k with
  | some (Json.nat n) => some n
  | _ => none

/-- The keys of a JSON object (empty for other variants). -/
def jsonKeys : Json → List String
  | Json.obj kvs => kvs.map Prod.fst
  | _ => []

/-- `serde_json::Map::insert`: replace the value under an existing key,
otherwise add the pair. -/
def objInsertKVs : List (String × Json) → String → Json → List (String × Json)
  | [], k, v => [(k, v)]
  | (k0, v0) :: rest, k, v =>
    if k0 = k then (k, v) :: rest else (k0, v0) :: objInsertKVs rest k v

/-- `Value::as_object_mut().insert(k, v)`; non-objects are left unchanged
(the source only calls it behind an `as_object_mut` test). -/
def objInsert : Json → String → Json → Json
  | Json.obj kvs, k, v => Json.obj (objInsertKVs kvs k v)
  | j, _, _ => j

/-- Embedding of `errors.rs: NativeError` (the `Io` variant is named `ioErr`
here; it carries the rendered message of the wrapped `std::io::Error`). -/
inductive NativeError where
  | ioErr (msg : String) : NativeError
  | encoding (msg : String) : NativeError
  | hashing (msg : String) : NativeError
  | cancelled : NativeError
  | other (msg : String) : NativeError
deriving DecidableEq

/-- The `Display` rendering of `NativeError` given by its `thiserror`
attributes in `errors.rs`. -/
def errMsg : NativeError → String
  | .ioErr m => "I/O error: " ++ m
  | .encoding m => "Encoding error: " ++ m
  | .hashing m => "Hashing error: " ++ m
  | .cancelled => "Traversal aborted"
  | .other m => "Unexpected error: " ++ m

/-- Whether an `Except NativeError` result is an error of the `Hashing` kind. -/
def isHashingErr {α : Type} : Except NativeError α → Bool
  | .error (.hashing _) => true
  | _ => false

/-- Whether an `Except NativeError` result is an error of the `Io` kind. -/
def isIoErr {α : Type} : Except NativeError α → Bool
  | .error (.ioErr _) => true
  | _ => false

/-- Whether an `Except NativeError` result is an error at all. -/
def isErr {α : Type} : Except NativeError α → Bool
  | .error _ => true
  | _ => false

/-! ## String primitives

Lean's built-in `String.startsWith`/`String.toLower` do not reduce inside the
kernel, so the embedding uses list-of-character models of the corresponding
`str` methods. -/

/-- Model of Rust `str::starts_with`. -/
def strStartsWith (s p : String) : Bool :=
  p.toList.isPrefixOf s.toList

/-- ASCII lowercasing of one character. -/
def lowerChar (c : Char) : Char :=
  if 'A' ≤ c ∧ c ≤ 'Z' then Char.ofNat (c.toNat + 32) else c

/-- Model of Rust `str::to_lowercase` (ASCII-adequate: the engine only
lowercases file extensions and encoding labels). -/
def strToLower (s : String) : String :=
  String.mk (s.toList.map lowerChar)

/-! ## The classifier: `mime.rs` -/

/-- `mime.rs: HEURISTIC_SAMPLE_SIZE`. -/
def HEURISTIC_SAMPLE_SIZE : Nat := 8192

/-- `mime.rs: SAFE_CONTROL`. -/
def SAFE_CONTROL : List Nat := [9, 10, 12, 13]

/-- `mime.rs: TEXTUAL_MIME_PREFIXES` (every entry is matched by
`str::starts_with` in `mime_implies_text`). -/
def TEXTUAL_MIME_PREFIXES : List String :=
  ["text/", "application/json", "application/xml", "application/javascript",
   "application/x-javascript", "application/x-sh"]

/-- `mime.rs: TEXTUAL_MIME_TYPES` (matched by equality). -/
def TEXTUAL_MIME_TYPES : List String :=
  ["application/x-empty", "inode/x-empty"]

/-- `mime.rs: TEXTUAL_EXTENSIONS`. -/
def TEXTUAL_EXTENSIONS : List String :=
  [".c", ".cc", ".cfg", ".cmake", ".conf", ".cpp", ".cs", ".css", ".csv",
   ".dart", ".env", ".go", ".gradle", ".h", ".hpp", ".html", ".ini", ".java",
   ".js", ".json", ".jsx", ".kt", ".less", ".lock", ".lua", ".m", ".md",
   ".php", ".pl", ".properties", ".ps1", ".py", ".pyi", ".r", ".rb", ".rs",
   ".rst", ".sass", ".scala", ".scss", ".sh", ".sql", ".swift", ".toml",
   ".ts", ".tsx", ".txt", ".vue", ".yaml", ".yml"]

/-- `mime.rs: BINARY_EXTENSIONS`. -/
def BINARY_EXTENSIONS : List String :=
  [".7z", ".apng", ".avi", ".bmp", ".class", ".dll", ".dylib", ".exe",
   ".gif", ".gz", ".ico", ".iso", ".jar", ".jpeg", ".jpg", ".lz", ".mkv",
   ".mov", ".mp3", ".mp4", ".ogg", ".otf", ".pdf", ".png", ".psd", ".pyd",
   ".rar", ".so", ".svgz", ".tar", ".tgz", ".ttf", ".wav", ".webm", ".webp",
   ".woff", ".woff2", ".xz", ".zip"]

/-- `mime.rs: classify_by_extension`, as a function of the path's
`extension()` (`none` when the path has no extension; the source formats the
lowercased extension with a leading dot before the table lookups). -/
def classifyByExtension (ext : Option String) : Option Bool :=
  match ext with
  | none => none
  | some e =>
    let suffix := "." ++ strToLower e
    if TEXTUAL_EXTENSIONS.contains suffix then some false
    else if BINARY_EXTENSIONS.contains suffix then some true
    else none

/-- `mime.rs: mime_implies_text`: equality against `TEXTUAL_MIME_TYPES`,
then `starts_with` against every entry of `TEXTUAL_MIME_PREFIXES`. -/
def mimeImpliesText (m : String) : Bool :=
  TEXTUAL_MIME_TYPES.contains m || TEXTUAL_MIME_PREFIXES.any (fun p => strStartsWith m p)

/-- `mime.rs: classify_mime_type`: `some false` = text, `some true` = binary,
`none` = defer. -/
def classifyMimeType (m : String) : Option Bool :=
  if mimeImpliesText m then some false
  else if m = "application/octet-stream" then none
  else some true

/-- The MIME text rule as the amended claim states it: `starts_with` for all
six prefix entries, equality for the two exact types (a spec-side
definition, to be compared with `classifyMimeType`). -/
def mimeTextRuleAmended (m : String) : Bool :=
  strStartsWith m "text/" || strStartsWith m "application/json" ||
  strStartsWith m "application/xml" || strStartsWith m "application/javascript" ||
  strStartsWith m "application/x-javascript" || strStartsWith m "application/x-sh" ||
  m == "application/x-empty" || m == "inode/x-empty"

/-- Count of printable bytes of a sample: in `[32, 126]` or in
`SAFE_CONTROL` (`mime.rs: printable_ratio`, numerator of the first ratio). -/
def countPrintable (sample : List Nat) : Nat :=
  (sample.filter (fun b => (32 ≤ b && b ≤ 126) || SAFE_CONTROL.contains b)).length

/-- Count of control bytes: `< 32` and not in `SAFE_CONTROL`
(`mime.rs: printable_ratio`, numerator of the second ratio). -/
def countControl (sample : List Nat) : Nat :=
  (sample.filter (fun b => b < 32 && !(SAFE_CONTROL.contains b))).length

/-- Count of NUL bytes (`mime.rs: printable_ratio`, numerator of the third
ratio). -/
def countNul (sample : List Nat) : Nat :=
  (sample.filter (fun b => b == 0)).length

/-- `sample.windows(2).any(|w| w == [0, 0])` from `mime.rs: analyse_sample`. -/
def hasDoubleNul : List Nat → Bool
  | [] => false
  | [_] => false
  | a :: b :: rest => (a == 0 && b == 0) || hasDoubleNul (b :: rest)

/-- `mime.rs: analyse_sample`, combined with `printable_ratio`.

The source compares `f64` ratios (`printable/total`, `control/total`,
`nul/total`, with `(1.0, 0.0, 0.0)` returned for an empty sample) against the
decimal constants 0.001, 0.10, 0.9, 0.95, 0.02 and 0.60.  The embedding uses
the exact cross-multiplied integer comparisons.  This is faithful for every
reachable sample: the counts are integers and `total ≤ 8192`
(`HEURISTIC_SAMPLE_SIZE`), so a ratio `n/total` that is not exactly equal to a
threshold differs from it by at least `1/(1000 * 8192) ≈ 1.2e-7`, which dwarfs
both the `f64` rounding of the correctly-rounded division and the distance
between each decimal constant and its nearest `f64`; and when the rational
ratio equals the threshold exactly, both sides of the `f64` comparison round
to the same double.  The `if nul > 0.0` guard of the source is kept: it only
gates the first rule.  The empty-sample case takes the `(1.0, 0.0, 0.0)`
ratios through the cascade, which lands in the text rule. -/
def analyseSample (sample : List Nat) : Option Bool :=
  let total := sample.length
  let printableCount := countPrintable sample
  let controlCount := countControl sample
  let nulCount := countNul sample
  if total = 0 then some false
  else if 0 < nulCount ∧ (total ≤ 1000 * nulCount ∨ hasDoubleNul sample) then some true
  else if total < 10 * controlCount ∧ 10 * printableCount < 9 * total then some true
  else if 19 * total ≤ 20 * printableCount ∧ 50 * controlCount ≤ total then some false
  else if 5 * printableCount ≤ 3 * total then some true
  else none

/-- The histogram cascade exactly as the claim states it, over exact
rationals: ratio comparisons against 1/1000, 1/10, 9/10, 95/100, 2/100 and
60/100 (a spec-side definition, to be compared with `analyseSample`). -/
def analyseSampleSpec (sample : List Nat) : Option Bool :=
  let total : ℚ := sample.length
  let printableR : ℚ := (countPrintable sample : ℚ) / total
  let controlR : ℚ := (countControl sample : ℚ) / total
  let nulR : ℚ := (countNul sample : ℚ) / total
  if 1 / 1000 ≤ nulR ∨ hasDoubleNul sample then some true
  else if 1 / 10 < controlR ∧ printableR < 9 / 10 then some true
  else if 95 / 100 ≤ printableR ∧ controlR ≤ 2 / 100 then some false
  else if printableR ≤ 60 / 100 then some true
  else none

/-! ## The abstract file environment

A shallow embedding of one file as the engine observes it: the outcome of
`path.metadata()`, the outcome of `File::open`, the byte content delivered by
reads, and the answers of the external detection crates. -/

/-- Outcome of `File::open(path)`. -/
inductive OpenOutcome where
  | ok : OpenOutcome
  | notFound : OpenOutcome
  | failed (msg : String) : OpenOutcome

/-- The fields of `std::fs::Metadata` the engine reads.  `mtimeSecs` and
`ctimeSecs` are `none` when `modified()`/`created()` or the
`duration_since(UNIX_EPOCH)` conversion fails; the fractional `f64` seconds
of the source are carried as whole seconds, which no claim observes. -/
structure MStat where
  size : Nat
  mtimeSecs : Option Nat
  ctimeSecs : Option Nat
  mode : Nat

/-- One file as seen by `process_path` and the modules it calls.
`stat` is the outcome of `path.metadata()` (with the rendered error message);
`content` is what successful reads deliver; `inferMime` / `guessMime` are the
MIME answers of the external `infer::get` and `mime_guess::from_path` crates
for this file (oracles: their lookup tables are not part of this repository). -/
structure MFile where
  name : String
  parent : String
  ext : Option String
  stat : Except String MStat
  openOut : OpenOutcome
  content : List Nat
  inferMime : Option String
  guessMime : Option String

/-- `mime.rs: read_file_sample`: open the file and read up to `sampleSize`
bytes; any open or read failure surfaces as an `Io` error via `?`. -/
def readFileSample (f : MFile) (sampleSize : Nat) : Except NativeError (List Nat) :=
  match f.openOut with
  | .ok => .ok (f.content.take sampleSize)
  | .notFound => .error (.ioErr "No such file or directory")
  | .failed msg => .error (.ioErr msg)

/-- `mime.rs: detect_with_infer`: magic-number sniffing over the sample via
the external `infer` crate (oracle field `inferMime`), classified by MIME. -/
def detectWithInfer (f : MFile) : Option Bool :=
  f.inferMime.bind classifyMimeType

/-- `mime.rs: detect_with_mime_guess`: path-based MIME guess via the external
`mime_guess` crate (oracle field `guessMime`), classified by MIME. -/
def detectWithMimeGuess (f : MFile) : Option Bool :=
  f.guessMime.bind classifyMimeType

/-- `mime.rs: magic_detect` in the configuration that is built
(`not(feature = "libmagic")`): always defers. -/
def magicDetect (_sample : List Nat) : Option Bool :=
  none

/-- `mime.rs: classify_uncached`: the short-circuit cascade
extension table → byte-histogram on an up-to-8192-byte sample →
`infer` sniffing → `mime_guess` → libmagic (absent) → fallback text. -/
def classifyUncached (f : MFile) : Except NativeError Bool :=
  match classifyByExtension f.ext with
  | some r => .ok r
  | none =>
    match readFileSample f HEURISTIC_SAMPLE_SIZE with
    | .error e => .error e
    | .ok sample =>
      match analyseSample sample with
      | some r => .ok r
      | none =>
        match detectWithInfer f with
        | some r => .ok r
        | none =>
          match detectWithMimeGuess f with
          | some r => .ok r
          | none =>
            match magicDetect sample with
            | some r => .ok r
            | none => .ok false

/-- `mime.rs: is_binary` = `content.rs: classify_binary`.  The in-memory LRU
of `is_binary` memoises `classify_uncached` keyed by `(path, size, mtime_ns)`;
on a cache miss (in particular on the first classification of a file, the
case every claim is about) it computes and returns exactly
`classify_uncached`, so the embedding equates the two. -/
def classifyBinary (f : MFile) : Except NativeError Bool :=
  classifyUncached f

/-! ## The content reader: `content.rs` -/

/-- `content.rs: STREAM_CHUNK_SIZE` (reads are chunked; the chunking is
invisible in the delivered bytes and is not modelled separately). -/
def STREAM_CHUNK_SIZE : Nat := 256 * 1024

/-- `content.rs: MAX_BINARY_CONTENT_BYTES`. -/
def MAX_BINARY_CONTENT_BYTES : Nat := 3 * 1024 * 1024

/-- `content.rs: MAX_TEXT_CONTENT_BYTES`. -/
def MAX_TEXT_CONTENT_BYTES : Nat := 5 * 1024 * 1024

/-- `content.rs: ENCODING_SAMPLE_BYTES`. -/
def ENCODING_SAMPLE_BYTES : Nat := 512 * 1024

/-- The standard base64 alphabet of the external `base64` crate's `STANDARD`
engine. -/
def base64Alphabet : List Char :=
  "ABCDEFGHIJKLMNOPQRSTUVWXYZabcdefghijklmnopqrstuvwxyz0123456789+/".toList

/-- One base64 digit. -/
def b64Char (n : Nat) : Char :=
  base64Alphabet.getD n 'A'

/-- Model of the external `base64` crate's `STANDARD.encode` (standard
alphabet, `=` padding). -/
def base64Encode : List Nat → String
  | [] => ""
  | [a] =>
    String.mk [b64Char (a / 4), b64Char (a % 4 * 16), '=', '=']
  | [a, b] =>
    String.mk [b64Char (a / 4), b64Char (a % 4 * 16 + b / 16), b64Char (b % 16 * 4), '=']
  | a :: b :: c :: rest =>
    String.mk [b64Char (a / 4), b64Char (a % 4 * 16 + b / 16),
      b64Char (b % 16 * 4 + c / 64), b64Char (c % 64)] ++ base64Encode rest

/-- `content.rs: read_binary_preview`.  `max_preview_bytes` is the `usize`
cap passed by the caller.  Reads deliver `min(preview_size, content length)`
bytes (`preview_size = min(file_size, min(cap, 3 MiB))`); the `truncated`
key is inserted exactly when the stat-time `file_size` exceeds the bytes
actually read. -/
def readBinaryPreview (f : MFile) (maxPreviewBytes : Nat) : Except NativeError Json :=
  match f.stat with
  | .error msg => .error (.ioErr msg)
  | .ok st =>
    if st.size > maxPreviewBytes then
      .ok (Json.obj [("type", .str "excluded"), ("reason", .str "binary_too_large"),
        ("size", .nat st.size)])
    else
      let readLimit := min maxPreviewBytes MAX_BINARY_CONTENT_BYTES
      let previewSize := min st.size readLimit
      match f.openOut with
      | .notFound => .error (.ioErr "No such file or directory")
      | .failed msg => .error (.ioErr msg)
      | .ok =>
        let buffer := f.content.take previewSize
        let totalRead := buffer.length
        let base := Json.obj [("type", .str "binary"),
          ("content", .str (base64Encode buffer)),
          ("encoding", .str "base64"),
          ("preview_bytes", .nat totalRead)]
        .ok (if st.size > totalRead then objInsert base "truncated" (.bool true) else base)

/-- Model of `encoding_rs::Encoding::for_label` (external crate): the labels
the claims' runs use.  Any recognised label resolves to the crate's canonical
encoding name; the exact label table of the crate is not observed. -/
def encodingForLabel (label : String) : Option String :=
  let l := strToLower label
  if l = "utf-8" ∨ l = "utf8" then some "UTF-8"
  else if l = "windows-1252" ∨ l = "latin1" then some "windows-1252"
  else if l = "utf-16le" then some "UTF-16LE"
  else if l = "utf-16be" then some "UTF-16BE"
  else none

/-- Model of `encoding_rs::Encoding::for_bom`. -/
def bomEncoding (sample : List Nat) : Option String :=
  match sample with
  | 239 :: 187 :: 191 :: _ => some "UTF-8"
  | 255 :: 254 :: _ => some "UTF-16LE"
  | 254 :: 255 :: _ => some "UTF-16BE"
  | _ => none

/-- Whether a byte is a UTF-8 continuation byte. -/
def isContByte (b : Nat) : Bool :=
  128 ≤ b && b ≤ 191

/-- Model of `std::str::from_utf8(..).is_ok()`: structural UTF-8 validity of
the sample (no claim observes its value). -/
def utf8Valid : List Nat → Bool
  | [] => true
  | b :: rest =>
    if b ≤ 127 then utf8Valid rest
    else
      match rest with
      | c1 :: r1 =>
        if 194 ≤ b && b ≤ 223 then isContByte c1 && utf8Valid r1
        else
          match r1 with
          | c2 :: r2 =>
            if 224 ≤ b && b ≤ 239 then isContByte c1 && isContByte c2 && utf8Valid r2
            else
              match r2 with
              | c3 :: r3 =>
                if 240 ≤ b && b ≤ 244 then
                  isContByte c1 && isContByte c2 && isContByte c3 && utf8Valid r3
                else false
              | [] => false
          | [] => false
      | [] => false

/-- `content.rs: detect_encoding`, returning the encoding name recorded in
the emitted record: caller label if recognised, else BOM, else UTF-8 when the
sample is valid UTF-8, else windows-1252. -/
def detectEncodingName (sample : List Nat) (provided : Option String) : String :=
  match provided.bind encodingForLabel with
  | some nm => nm
  | none =>
    match bomEncoding sample with
    | some nm => nm
    | none => if utf8Valid sample then "utf-8" else "windows-1252"

/-- Model of `encoding_rs` decoding (external crate): the decoded text is not
observed by any claim, so bytes are rendered one character per byte. -/
def decodeBytes (_encodingName : String) (bytes : List Nat) : String :=
  String.mk (bytes.map (fun b => Char.ofNat b))

/-- `content.rs: read_text_preview`.  Reads an up-to-512-KiB sample for
encoding detection, rewinds, reads up to `read_limit = min(cap, 5 MiB)`
bytes, and inserts the `truncated` key exactly when the stat-time
`file_size` exceeds `read_limit` (not the bytes actually read). -/
def readTextPreview (f : MFile) (maxPreviewBytes : Nat) (encodingLabel : Option String) :
    Except NativeError Json :=
  match f.stat with
  | .error msg => .error (.ioErr msg)
  | .ok st =>
    let readLimit := min maxPreviewBytes MAX_TEXT_CONTENT_BYTES
    match f.openOut with
    | .notFound => .error (.ioErr "No such file or directory")
    | .failed msg => .error (.ioErr msg)
    | .ok =>
      let sample := f.content.take ENCODING_SAMPLE_BYTES
      let encodingName := detectEncodingName sample encodingLabel
      let buffer := f.content.take readLimit
      let totalRead := buffer.length
      let base := Json.obj [("type", .str "text"),
        ("encoding", .str encodingName),
        ("content", .str (decodeBytes encodingName buffer)),
        ("preview_bytes", .nat totalRead)]
      .ok (if st.size > readLimit then objInsert base "truncated" (.bool true) else base)

/-! ## The hasher: `hashing.rs`

The streaming `Xxh64::default()` (seed 0) over 64 KiB chunks computes the
standard one-shot XXH64 digest of the concatenated bytes; the embedding
computes that digest directly. -/

/-- 2^64. -/
def two64 : Nat := 18446744073709551616

/-- Reduce to a 64-bit value. -/
def mask64 (n : Nat) : Nat := n % two64

/-- XXH64 prime 1. -/
def XXH_P1 : Nat := 0x9E3779B185EBCA87

/-- XXH64 prime 2. -/
def XXH_P2 : Nat := 0xC2B2AE3D27D4EB4F

/-- XXH64 prime 3. -/
def XXH_P3 : Nat := 0x165667B19E3779F9

/-- XXH64 prime 4. -/
def XXH_P4 : Nat := 0x85EBCA77C2B2AE63

/-- XXH64 prime 5. -/
def XXH_P5 : Nat := 0x27D4EB2F165667C5

/-- 64-bit addition. -/
def add64 (a b : Nat) : Nat := mask64 (a + b)

/-- 64-bit multiplication. -/
def mul64 (a b : Nat) : Nat := mask64 (a * b)

/-- 64-bit left rotation. -/
def rotl64 (x r : Nat) : Nat :=
  mask64 (x <<< r) ||| (x >>> (64 - r))

/-- Little-endian value of a byte list. -/
def leNat : List Nat → Nat
  | [] => 0
  | b :: rest => b + 256 * leNat rest

/-- The XXH64 accumulator round. -/
def xxhRound (acc lane : Nat) : Nat :=
  mul64 (rotl64 (add64 acc (mul64 lane XXH_P2)) 31) XXH_P1

/-- The XXH64 merge round applied to each accumulator. -/
def xxhMergeRound (h v : Nat) : Nat :=
  add64 (mul64 (Nat.xor h (xxhRound 0 v)) XXH_P1) XXH_P4

/-- The XXH64 avalanche finalisation. -/
def xxhAvalanche (h : Nat) : Nat :=
  let h1 := Nat.xor h (h >>> 33)
  let h2 := mul64 h1 XXH_P2
  let h3 := Nat.xor h2 (h2 >>> 29)
  let h4 := mul64 h3 XXH_P3
  Nat.xor h4 (h4 >>> 32)

/-- Consume all full 32-byte stripes, updating the four accumulators;
returns the accumulators and the remaining bytes. -/
def xxh64Stripes (acc : Nat × Nat × Nat × Nat) (bytes : List Nat) :
    (Nat × Nat × Nat × Nat) × List Nat :=
  if _le32 : 32 ≤ bytes.length then
    let (v1, v2, v3, v4) := acc
    let l1 := leNat ((bytes.take 8))
    let l2 := leNat ((bytes.drop 8).take 8)
    let l3 := leNat ((bytes.drop 16).take 8)
    let l4 := leNat ((bytes.drop 24).take 8)
    xxh64Stripes (xxhRound v1 l1, xxhRound v2 l2, xxhRound v3 l3, xxhRound v4 l4)
      (bytes.drop 32)
  else (acc, bytes)
termination_by bytes.length
decreasing_by
  simp only [List.length_drop]
  omega

/-- The XXH64 tail: 8-byte lanes, then one 4-byte lane, then single bytes. -/
def xxh64Tail (h : Nat) : List Nat → Nat
  | b0 :: b1 :: b2 :: b3 :: b4 :: b5 :: b6 :: b7 :: rest =>
    let k1 := xxhRound 0 (leNat [b0, b1, b2, b3, b4, b5, b6, b7])
    xxh64Tail (add64 (mul64 (rotl64 (Nat.xor h k1) 27) XXH_P1) XXH_P4) rest
  | b0 :: b1 :: b2 :: b3 :: rest =>
    xxh64Tail (add64 (mul64 (rotl64 (Nat.xor h (mul64 (leNat [b0, b1, b2, b3]) XXH_P1)) 23)
      XXH_P2) XXH_P3) rest
  | b :: rest =>
    xxh64Tail (mul64 (rotl64 (Nat.xor h (mul64 b XXH_P5)) 11) XXH_P1) rest
  | [] => h

/-- One-shot XXH64 of `input` with the given seed: the digest computed by
`hashing.rs: compute_file_hash` via the external `xxhash_rust` crate's
streaming `Xxh64` (whose default seed is 0). -/
def xxh64 (seed : Nat) (input : List Nat) : Nat :=
  let start :=
    if 32 ≤ input.length then
      let st := xxh64Stripes
        (mask64 (seed + XXH_P1 + XXH_P2), mask64 (seed + XXH_P2),
         mask64 seed, mask64 (seed + (two64 - XXH_P1))) input
      let v1 := st.1.1
      let v2 := st.1.2.1
      let v3 := st.1.2.2.1
      let v4 := st.1.2.2.2
      let h := add64 (add64 (rotl64 v1 1) (rotl64 v2 7)) (add64 (rotl64 v3 12) (rotl64 v4 18))
      (xxhMergeRound (xxhMergeRound (xxhMergeRound (xxhMergeRound h v1) v2) v3) v4, st.2)
    else (mask64 (seed + XXH_P5), input)
  xxhAvalanche (xxh64Tail (add64 start.1 input.length) start.2)

/-- `format!("{:016x}", digest)`: lowercase hex, zero-padded to 16 digits
(exact for every `u64` value). -/
def hexPad16 (n : Nat) : String :=
  String.mk ((List.range 16).reverse.map (fun i => Nat.digitChar (n / 16 ^ i % 16)))

/-- The read stream `compute_file_hash` sees after a successful open: either
the whole content, or a failure after a prefix (`BufReader::read` returning
an `Err`, surfaced by `?`). -/
inductive ReadStream where
  | ok (content : List Nat) : ReadStream
  | failAfter (pre : List Nat) (msg : String) : ReadStream

/-- The file as `compute_file_hash` observes it. -/
structure HashFile where
  openOut : OpenOutcome
  stream : ReadStream

/-- `hashing.rs: compute_file_hash`: `Ok(None)` exactly when the open fails
with `NotFound`; any other open error and any read error surface as the `Io`
kind (the `Err(err) => Err(NativeError::Io(err))` arm, and `?` through the
`#[from] std::io::Error` conversion); on success the lowercase zero-padded
16-digit hex of the XXH64 (seed 0) digest of the full contents. -/
def computeFileHash (f : HashFile) : Except NativeError (Option String) :=
  match f.openOut with
  | .notFound => .ok none
  | .failed msg => .error (.ioErr msg)
  | .ok =>
    match f.stream with
    | .failAfter _ msg => .error (.ioErr msg)
    | .ok content => .ok (some (hexPad16 (xxh64 0 content)))

example : computeFileHash ⟨.ok, .ok [97, 98, 99]⟩ = .ok (some "44bc2cf5ad770999") := rfl

/-! ## Per-file processing: `traversal.rs: process_path` -/

/-- The fields of `TraversalOptions` that `process_path` reads
(`traversal.rs: TraversalOptions`; the walker-only fields appear with the
walker model below). -/
structure MOptions where
  maxFileSize : Nat
  includeBinary : Bool
  imageExtensions : List String
  hashingEnabled : Bool
  encodingLabel : Option String
  timezoneLabel : String

/-- `format!("{:#o}", mode)`: the `0o`-prefixed octal rendering. -/
def octalString (n : Nat) : String :=
  "0o" ++ String.mk (Nat.toDigits 8 n)

/-- Model of `TimezoneInfo::format_system_time` (external `chrono` crate):
the RFC-3339 rendering of a timestamp in the configured zone.  No claim
observes the rendered text, only its presence. -/
def formatTimestamp (tzLabel : String) (secs : Nat) : String :=
  "rfc3339:" ++ tzLabel ++ ":" ++ String.mk (Nat.toDigits 10 secs)

/-- The `if let Value::Object(map) = &mut info` block of `process_path`:
stamp `size`, `permissions`, `modified`, `created` and `timezone` into an
object info (non-objects are left unchanged, mirroring the source's guard,
though every info built by the source is an object). -/
def stampInfo (info : Json) (st : MStat) (tzLabel : String) : Json :=
  match info with
  | Json.obj kvs =>
    let j1 := objInsert (Json.obj kvs) "size" (.nat st.size)
    let j2 := objInsert j1 "permissions" (.str (octalString st.mode))
    let j3 := objInsert j2 "modified"
      (match st.mtimeSecs with
       | some s => .str (formatTimestamp tzLabel s)
       | none => .null)
    let j4 := objInsert j3 "created"
      (match st.ctimeSecs with
       | some s => .str (formatTimestamp tzLabel s)
       | none => .null)
    objInsert j4 "timezone" (.str tzLabel)
  | other => other

/-- The lowercased extension string of `process_path`
(`path.extension().and_then(to_str).unwrap_or("").to_lowercase()`). -/
def extLower (f : MFile) : String :=
  match f.ext with
  | some e => strToLower e
  | none => ""

/-- The `is_image` test of `process_path`:
`image_extensions.contains(format!(".{}", extension))`. -/
def isImageFile (f : MFile) (o : MOptions) : Bool :=
  o.imageExtensions.contains ("." ++ extLower f)

/-- `traversal.rs: process_path`.  The returned record is one element of an
`Entries` batch.  Note which returns carry which keys: the stat-failure,
file-size-exclusion, classification-failure and binary-or-image-exclusion
returns build objects with only `parent`, `filename` and `info`; only the
fall-through path that reaches the preview stage builds the
`parent`/`filename`/`info`/`stat` object and, when hashing is enabled,
inserts `hash`. -/
def processPath (f : MFile) (o : MOptions) : Json :=
  match f.stat with
  | .error msg =>
    Json.obj [("parent", .str f.parent), ("filename", .str f.name),
      ("info", Json.obj [("type", .str "error"),
        ("content", .str ("Failed to get file stats: " ++ msg)),
        ("exception_type", .str "OSError"),
        ("exception_message", .str msg)])]
  | .ok st =>
    if st.size > o.maxFileSize then
      Json.obj [("parent", .str f.parent), ("filename", .str f.name),
        ("info", Json.obj [("type", .str "excluded"),
          ("reason", .str "file_size"),
          ("size", .nat st.size)])]
    else
      match classifyBinary f with
      | .error e =>
        Json.obj [("parent", .str f.parent), ("filename", .str f.name),
          ("info", Json.obj [("type", .str "error"),
            ("content", .str ("Failed to classify file: " ++ errMsg e)),
            ("exception_type", .str "NativeError"),
            ("exception_message", .str (errMsg e))])]
      | .ok binary =>
        if (binary || isImageFile f o) && !o.includeBinary then
          Json.obj [("parent", .str f.parent), ("filename", .str f.name),
            ("info", Json.obj [("type", .str "excluded"),
              ("reason", .str "binary_or_image")])]
        else
          let info0 :=
            if binary then
              match readBinaryPreview f o.maxFileSize with
              | .ok i => i
              | .error e => Json.obj [("type", .str "error"),
                  ("content", .str ("Failed to read binary file: " ++ errMsg e)),
                  ("exception_type", .str "NativeError"),
                  ("exception_message", .str (errMsg e))]
            else
              match readTextPreview f o.maxFileSize o.encodingLabel with
              | .ok i => i
              | .error e => Json.obj [("type", .str "error"),
                  ("content", .str ("Failed to read text file: " ++ errMsg e)),
                  ("exception_type", .str "NativeError"),
                  ("exception_message", .str (errMsg e))]
          let info := stampInfo info0 st o.timezoneLabel
          let hashValue :=
            if o.hashingEnabled then
              match computeFileHash ⟨f.openOut, ReadStream.ok f.content⟩ with
              | .ok (some h) => Json.str h
              | .ok none => Json.null
              | .error e => Json.obj [("type", .str "error"),
                  ("content", .str ("Failed to compute hash: " ++ errMsg e))]
            else Json.null
          let entry := Json.obj [("parent", .str f.parent), ("filename", .str f.name),
            ("info", info),
            ("stat", Json.obj [("size", .nat st.size),
              ("mtime", .nat (st.mtimeSecs.getD 0)),
              ("ctime", .nat (st.ctimeSecs.getD 0)),
              ("mode", .nat st.mode)])]
          if o.hashingEnabled then objInsert entry "hash" hashValue else entry

/-- Whether `process_path` reaches the preview stage for this file: the stat
succeeded, the size cap passed, classification succeeded, and the
binary-or-image exclusion did not fire. -/
def reachedPreview (f : MFile) (o : MOptions) : Bool :=
  match f.stat with
  | .error _ => false
  | .ok st =>
    if st.size > o.maxFileSize then false
    else
      match classifyBinary f with
      | .error _ => false
      | .ok binary => !((binary || isImageFile f o) && !o.includeBinary)

/-- The info type of a record (`entry["info"]["type"]`). -/
def infoType (entry : Json) : Option String :=
  match getKey entry "info" with
  | some info => getStr info "type"
  | none => none

/-! ## The walker: `traversal.rs: gather_files`

The `walkdir` iteration is embedded as a tree of entries: a directory entry
carries the entries yielded beneath it, `errEntry` is an entry whose
enumeration failed (`Err(_)` from the iterator), `otherEntry` an entry that
is neither file nor directory.  `skip_current_dir` after a directory match is
modelled by not descending into the children.  The run modelled has no
cancellation token (`options.cancellation = None`), under which the poll
block is skipped entirely. -/

/-- One yielded walk entry (with its subtree, for directories). -/
inductive FsNode where
  | file (name : String) : FsNode
  | dir (name : String) (children : List FsNode) : FsNode
  | errEntry : FsNode
  | otherEntry : FsNode

/-- The walker-relevant options: name-equality sets and the compiled
`PatternMatcher`s, each an abstract `is_match` predicate (glob and regex
matching live in external crates). -/
structure WalkOptions where
  excludedFolders : List String
  excludedFiles : List String
  excludePatterns : List (String → Bool)

/-- `traversal.rs: matches_patterns`. -/
def matchesPatterns (name : String) (patterns : List (String → Bool)) : Bool :=
  patterns.any (fun p => p name)

/-- The mutable state of `gather_files`: the worklist (file basenames stand
in for the full paths) and the `included`/`excluded` counters. -/
structure GatherSt where
  files : List String
  included : Nat
  excluded : Nat

mutual

/-- One iteration of the `gather_files` loop on one yielded entry:
enumeration failures are skipped silently (`Err(_) => continue`, before any
counter is touched); matching directories are pruned; files are counted
excluded or included; other entries are ignored. -/
def gatherNode (o : WalkOptions) : FsNode → GatherSt → GatherSt
  | .errEntry, st => st
  | .otherEntry, st => st
  | .dir name children, st =>
    if o.excludedFolders.contains name || matchesPatterns name o.excludePatterns then st
    else gatherList o children st
  | .file name, st =>
    if o.excludedFiles.contains name || matchesPatterns name o.excludePatterns then
      { st with excluded := st.excluded + 1 }
    else
      { st with included := st.included + 1, files := st.files ++ [name] }

/-- `gather_files` over a sequence of sibling entries, in yield order. -/
def gatherList (o : WalkOptions) : List FsNode → GatherSt → GatherSt
  | [], st => st
  | n :: rest, st => gatherList o rest (gatherNode o n st)

end

/-- `traversal.rs: gather_files` from the root entry. -/
def gatherFiles (o : WalkOptions) (root : FsNode) : GatherSt :=
  gatherNode o root ⟨[], 0, 0⟩

/-! ## The aggregator: `traversal.rs: aggregate_entries`

The channel traffic is embedded as the list of `(submission_index, record)`
pairs in arrival order; the emitted `Entries` batches are collected in
`batches`.  The source pushes only the record into a chunk (the index is the
`BTreeMap` key it was stored under); the embedding keeps the pair so the
emission order can be stated.  Sends are modelled as succeeding (a failed
send only cuts the stream short and sets the cancellation flag). -/

/-- The aggregator's running state: the pending reorder map (`BTreeMap`,
kept as a key-sorted association list), `next_index`, the chunk being
assembled, the emitted batches, and the `processed`/`failed_files`
counters. -/
structure AggState where
  pending : List (Nat × Json)
  nextIndex : Nat
  chunk : List (Nat × Json)
  batches : List (List (Nat × Json))
  processed : Nat
  failedFiles : List Json

/-- The options `aggregate_entries` reads, plus the walker counters it is
handed. -/
structure AggOptions where
  root : String
  chunkSize : Nat
  included : Nat
  excluded : Nat
  hashingEnabled : Bool

/-- Model of `PathBuf::join` on the forward-slash paths the records carry. -/
def joinPath (a b : String) : String :=
  a ++ "/" ++ b

/-- The `failed_files` bookkeeping of `aggregate_entries`: when the record's
`info` is an object of type `error` and the record has a string `filename`,
push `{ file, error }` built from root-joined parent/filename and the info's
`content` (defaulting to "Unknown error"). -/
def failedEntryOf (root : String) (entry : Json) : Option Json :=
  match getKey entry "info" with
  | some info =>
    match getStr info "type" with
    | some t =>
      if t = "error" then
        match getStr entry "filename" with
        | some filename =>
          let rel :=
            match getStr entry "parent" with
            | some parent =>
              if parent = "" then filename else joinPath parent filename
            | none => filename
          some (Json.obj [("file", .str (joinPath root rel)),
            ("error", .str ((getStr info "content").getD "Unknown error"))])
        | none => none
      else none
    | none => none
  | none => none

/-- `BTreeMap::get` on the pending association list. -/
def lookupPending : List (Nat × Json) → Nat → Option Json
  | [], _ => none
  | (k0, v0) :: rest, k => if k0 = k then some v0 else lookupPending rest k

/-- `BTreeMap::remove` on the pending association list (drops the one entry
with the key). -/
def erasePending : List (Nat × Json) → Nat → List (Nat × Json)
  | [], _ => []
  | (k0, v0) :: rest, k => if k0 = k then rest else (k0, v0) :: erasePending rest k

/-- `BTreeMap::insert` into the key-sorted pending list: replace under an
existing key, otherwise insert at the ordered position. -/
def insertPending : List (Nat × Json) → Nat × Json → List (Nat × Json)
  | [], p => [p]
  | (k0, v0) :: rest, p =>
    if p.1 < k0 then p :: (k0, v0) :: rest
    else if p.1 = k0 then p :: rest
    else (k0, v0) :: insertPending rest p

/-- `chunk.push(entry)` followed by the chunk-size check: emit the chunk as
an `Entries` batch when it reaches `chunk_size`. -/
def pushEntry (cs : Nat) (st : AggState) (p : Nat × Json) : AggState :=
  let chunk := st.chunk ++ [p]
  if cs ≤ chunk.length then
    { st with chunk := [], batches := st.batches ++ [chunk] }
  else
    { st with chunk := chunk }

/-- The `while let Some(next_entry) = pending.remove(&next_index)` drain
loop.  `fuel` bounds the iterations; every successful removal shortens
`pending` by one, so `fuel = pending.length` (as every caller passes) makes
the recursion exhaust the loop exactly. -/
def drainFuel (cs : Nat) : Nat → AggState → AggState
  | 0, st => st
  | fuel + 1, st =>
    match lookupPending st.pending st.nextIndex with
    | none => st
    | some e =>
      let st' := pushEntry cs
        { st with pending := erasePending st.pending st.nextIndex,
                  nextIndex := st.nextIndex + 1 }
        (st.nextIndex, e)
      drainFuel cs fuel st'

/-- One iteration of the aggregator's receive loop on an incoming
`(index, record)` pair: count it processed, record a failed file if the info
is an error, insert into the pending map and drain contiguously. -/
def recvStep (o : AggOptions) (st : AggState) (p : Nat × Json) : AggState :=
  let st1 := { st with processed := st.processed + 1 }
  let st2 :=
    match failedEntryOf o.root p.2 with
    | some fj => { st1 with failedFiles := st1.failedFiles ++ [fj] }
    | none => st1
  let st3 := { st2 with pending := insertPending st2.pending p }
  drainFuel o.chunkSize st3.pending.length st3

/-- The post-channel flush: push the remaining pending entries in key order
(`BTreeMap::into_iter`), emitting full chunks along the way. -/
def flushPending (cs : Nat) (st : AggState) : AggState :=
  st.pending.foldl (pushEntry cs) { st with pending := [] }

/-- The final partial-chunk emission (`if !chunk.is_empty()`). -/
def emitLast (st : AggState) : AggState :=
  if st.chunk.isEmpty then st
  else { st with batches := st.batches ++ [st.chunk], chunk := [] }

/-- The `Summary` value built at the end of `aggregate_entries`.  The `f64`
`excluded_percentage` is carried as its truncated integral value, which no
claim observes. -/
def summaryJson (o : AggOptions) (st : AggState) (stoppedEarly : Bool) : Json :=
  let total := o.included + o.excluded
  let pct := if total = 0 then 0 else o.excluded * 100 / total
  let base := Json.obj [("total_files", .nat total),
    ("excluded_files", .nat o.excluded),
    ("included_files", .nat o.included),
    ("excluded_percentage", .nat pct),
    ("failed_files", .arr st.failedFiles),
    ("stopped_early", .bool stoppedEarly),
    ("processed_files", .nat st.processed)]
  if o.hashingEnabled then objInsert base "hash_algorithm" (.str "xxhash") else base

/-- `traversal.rs: aggregate_entries` over the whole arrival sequence:
the emitted `Entries` batches (in emission order) and the terminal `Summary`.
`stoppedEarly` is the cancellation flag at summary time. -/
def aggregateEntries (o : AggOptions) (inputs : List (Nat × Json)) (stoppedEarly : Bool) :
    List (List (Nat × Json)) × Json :=
  let st0 : AggState := ⟨[], 0, [], [], 0, []⟩
  let st1 := inputs.foldl (recvStep o) st0
  let st2 := emitLast (flushPending o.chunkSize st1)
  (st2.batches, summaryJson o st2 stoppedEarly)

/-! ## Concrete runs used by counterexamples and witnesses -/

/-- A file whose `path.metadata()` call fails. -/
def statFailFile : MFile :=
  ⟨"f.txt", "", some "txt", .error "permission denied", .ok, [], none, none⟩

/-- Options of an ordinary hashing run. -/
def defaultOptions : MOptions :=
  ⟨1000000, true, [], true, none, "UTC"⟩

/-- An empty file named with the binary-table extension `.png`. -/
def emptyPngFile : MFile :=
  ⟨"x.png", "", some "png", .ok ⟨0, some 0, some 0, 420⟩, .ok, [], none, none⟩

/-- An empty extension-less readable file. -/
def emptyPlainFile : MFile :=
  ⟨"empty", "", none, .ok ⟨0, some 0, some 0, 420⟩, .ok, [], none, none⟩

/-- The 4 MiB PNG of the large-binary scenario (4194304 bytes on disk). -/
def png4MiB : MFile :=
  ⟨"big.png", "", some "png", .ok ⟨4194304, some 0, some 0, 420⟩, .ok,
   List.replicate 4194304 137, none, none⟩

/-- The traversal options of the large-binary scenario:
`max_file_size = 10 MiB` (hashing off: the hash value plays no part). -/
def pngOptions : MOptions :=
  ⟨10485760, true, [".png"], false, none, "UTC"⟩

/-- A file whose open fails with an error other than `NotFound`. -/
def deniedHashFile : HashFile :=
  ⟨.failed "permission denied", .ok []⟩

/-- A file whose stat-time size (10) exceeds the bytes its reads deliver
(4). -/
def shrunkFile : MFile :=
  ⟨"w.bin", "", none, .ok ⟨10, none, none, 0⟩, .ok, [1, 2, 3, 4], none, none⟩

/-- `flatOf st`: the records pushed so far, in push order — the emitted
batches joined, followed by the chunk under assembly. -/
def flatOf (st : AggState) : List (Nat × Json) :=
  st.batches.flatten ++ st.chunk

/-- The pending map is strictly key-sorted (the `BTreeMap` representation
invariant). -/
def PWlt (l : List (Nat × Json)) : Prop :=
  l.Pairwise (fun a b => a.1 < b.1)

/-- The keys a record may carry. -/
def recordKeysAllowed : List String :=
  ["parent", "filename", "info", "stat", "hash"]

/-! # Theorems

First the generic observation lemmas on the `Json` embedding, then the
claims in order. -/

/-- Inserting under key `k` leaves lookups under any other key unchanged. -/
theorem lookupStr_objInsertKVs_ne (kvs : List (String × Json)) (k k' : String) (v : Json)
    (h : k ≠ k') : lookupStr (objInsertKVs kvs k v) k' = lookupStr kvs k' := by
  induction kvs with
  | nil => simp [objInsertKVs, lookupStr, h]
  | cons hd tl ih =>
    by_cases hk : hd.1 = k
    · simp only [objInsertKVs, hk, if_pos rfl, lookupStr, h]
      simp [lookupStr, hk]
    · simp only [objInsertKVs, hk, if_neg hk, lookupStr]
      by_cases hk' : hd.1 = k'
      · simp [hk']
      · simp [hk', ih]

/-- `objInsert` under `k` leaves `getKey` under `k' ≠ k` unchanged. -/
theorem getKey_objInsert_ne (j : Json) (k k' : String) (v : Json) (h : k ≠ k') :
    getKey (objInsert j k v) k' = getKey j k' := by
  cases j <;> simp [objInsert, getKey]
  exact lookupStr_objInsertKVs_ne _ k k' v h

/-- Looking up the key just inserted finds the inserted value. -/
theorem lookupStr_objInsertKVs_self (kvs : List (String × Json)) (k : String) (v : Json) :
    lookupStr (objInsertKVs kvs k v) k = some v := by
  induction kvs with
  | nil => simp [objInsertKVs, lookupStr]
  | cons hd tl ih =>
    by_cases hk : hd.1 = k
    · simp [objInsertKVs, hk, lookupStr]
    · simp [objInsertKVs, hk, lookupStr, ih]

/-- `getKey` after `objInsert` on an object finds the inserted value. -/
theorem getKey_objInsert_self (kvs : List (String × Json)) (k : String) (v : Json) :
    getKey (objInsert (Json.obj kvs) k v) k = some v := by
  simp [objInsert, getKey, lookupStr_objInsertKVs_self]

/-- `stampInfo` does not touch the `type` key. -/
theorem getStr_stampInfo_type (i : Json) (st : MStat) (tz : String) :
    getStr (stampInfo i st tz) "type" = getStr i "type" := by
  cases i with
  | obj kvs =>
    simp only [stampInfo, getStr]
    rw [getKey_objInsert_ne _ _ _ _ (by decide),
      getKey_objInsert_ne _ _ _ _ (by decide),
      getKey_objInsert_ne _ _ _ _ (by decide),
      getKey_objInsert_ne _ _ _ _ (by decide),
      getKey_objInsert_ne _ _ _ _ (by decide)]
  | null => rfl
  | bool b => rfl
  | nat n => rfl
  | str s => rfl
  | arr xs => rfl

example : analyseSample [] = some false := by decide
example : analyseSample [0, 0] = some true := by decide
example : analyseSample [65, 66, 67] = some false := by decide
example : computeFileHash ⟨.ok, .ok [97, 98, 99]⟩ = .ok (some "44bc2cf5ad770999") := rfl

/-! ## C10 — the walker skips enumeration failures -/

/-- Processing a walk segment splits as sequential processing. -/
theorem gatherList_append (o : WalkOptions) (l1 l2 : List FsNode) (st : GatherSt) :
    gatherList o (l1 ++ l2) st = gatherList o l2 (gatherList o l1 st) := by
  induction l1 generalizing st with
  | nil => rfl
  | cons n rest ih =>
    show gatherList o (rest ++ l2) (gatherNode o n st) =
      gatherList o l2 (gatherList o rest (gatherNode o n st))
    exact ih _

/-- C10: the Walker silently skips any directory entry whose enumeration
fails.  An `Err(_)` entry inserted anywhere in a yielded sequence (at any
depth: `gatherList` is also what a non-excluded directory runs on its
children) leaves the gather state — worklist, `included`, `excluded` —
exactly as without it, so such entries yield no record and appear in no
Summary counter. -/
theorem c10_walker_skips_errors (o : WalkOptions) (l1 l2 : List FsNode) (st : GatherSt) :
    gatherList o (l1 ++ FsNode.errEntry :: l2) st = gatherList o (l1 ++ l2) st := by
  rw [gatherList_append, gatherList_append]
  rfl

/-! ## C5 — the MIME classification rule -/

/-- C5 counterexample: `application/x-shockwave-flash` neither starts with
`text/` nor equals any of the claim's seven application types, so the claim
requires it to classify binary (`some true`); the code matches every table
entry with `starts_with`, finds the prefix `application/x-sh`, and classifies
it text (`some false`). -/
theorem c5_counterexample :
    classifyMimeType "application/x-shockwave-flash" = some false := by decide

/-- The code's text test agrees with the amended rule (prefix matching for
all six prefix entries, equality for the two exact types). -/
theorem mimeImpliesText_eq_amended (m : String) :
    mimeImpliesText m = mimeTextRuleAmended m := by
  rw [Bool.eq_iff_iff]
  simp only [mimeImpliesText, mimeTextRuleAmended, TEXTUAL_MIME_TYPES,
    TEXTUAL_MIME_PREFIXES, List.contains, List.elem_eq_mem, List.mem_cons,
    List.not_mem_nil, List.any_cons, List.any_nil, Bool.or_eq_true,
    beq_iff_eq, decide_eq_true_eq, or_false]
  tauto

/-- C5 (amended): the MIME rule yields text exactly when `m` starts with one
of the six prefix entries (`text/`, `application/json`, `application/xml`,
`application/javascript`, `application/x-javascript`, `application/x-sh` —
prefix matching for all of them, not equality) or equals
`application/x-empty` or `inode/x-empty`; it defers exactly on
`application/octet-stream`; and it yields binary otherwise. -/
theorem c5_mime_rule (m : String) :
    classifyMimeType m =
      (if mimeTextRuleAmended m then some false
       else if m = "application/octet-stream" then none
       else some true) ∧
    (classifyMimeType m = none ↔ m = "application/octet-stream") := by
  have h := mimeImpliesText_eq_amended m
  have hoct : mimeTextRuleAmended "application/octet-stream" = false := by decide
  constructor
  · simp only [classifyMimeType, h]
  · simp only [classifyMimeType, h]
    by_cases ht : mimeTextRuleAmended m = true
    · have hm : m ≠ "application/octet-stream" := by
        intro hme
        rw [hme, hoct] at ht
        exact Bool.false_ne_true ht
      simp [ht, hm]
    · by_cases ho : m = "application/octet-stream"
      · simp [ht, ho, hoct]
      · simp [ht, ho]

/-! ## C6 — empty files -/

/-- C6 counterexample: an empty file named `x.png` exists and is readable,
yet `classify_binary` returns `true`: the extension table short-circuits the
cascade before the empty sample can classify it as text. -/
theorem c6_counterexample : classifyBinary emptyPngFile = Except.ok true := rfl

/-- C6 (amended): an empty readable file classifies as text unless the
extension table already decides it binary (the table is consulted first and
short-circuits; an empty sample then always lands in the text rule). -/
theorem c6_empty_text (f : MFile) (h1 : f.content = []) (h2 : f.openOut = .ok)
    (h3 : classifyByExtension f.ext ≠ some true) :
    classifyBinary f = .ok false := by
  unfold classifyBinary classifyUncached
  cases hce : classifyByExtension f.ext with
  | some b =>
    cases b with
    | false => rfl
    | true => exact absurd hce h3
  | none =>
    simp only [readFileSample, h2, h1, List.take_nil]
    rfl

/-- C6 witness: an empty extension-less readable file classifies as text. -/
theorem c6_empty_text_witness : classifyBinary emptyPlainFile = .ok false :=
  c6_empty_text emptyPlainFile rfl rfl (by decide)

/-! ## C7 — the byte-histogram cascade -/

/-- Two consecutive NULs put a zero byte in the sample. -/
theorem hasDoubleNul_mem_zero (s : List Nat) (h : hasDoubleNul s = true) : 0 ∈ s := by
  induction s with
  | nil => simp [hasDoubleNul] at h
  | cons a t ih =>
    cases t with
    | nil => simp [hasDoubleNul] at h
    | cons b rest =>
      rw [hasDoubleNul, Bool.or_eq_true, Bool.and_eq_true] at h
      rcases h with ⟨ha, _⟩ | hrest
      · exact (beq_iff_eq.mp ha) ▸ List.mem_cons_self _ _
      · exact List.mem_cons_of_mem _ (ih hrest)

/-- A zero byte in the sample makes the NUL count positive. -/
theorem countNul_pos_of_mem (s : List Nat) (h : 0 ∈ s) : 0 < countNul s := by
  unfold countNul
  have hm : (0 : Nat) ∈ s.filter (fun b => b == 0) := List.mem_filter.mpr ⟨h, by decide⟩
  exact List.length_pos.mpr (List.ne_nil_of_mem hm)

/-- C7: on every nonempty sample the byte-histogram stage decides exactly as
the claim's rational-ratio cascade does, in the claim's order; `printable`,
`control` and `nul` count bytes as the claim defines them.  (The source
compares `f64` ratios; as argued at `analyseSample`, on all reachable sample
sizes the comparisons agree with exact rational arithmetic.) -/
theorem c7_histogram_order (sample : List Nat) (h : sample ≠ []) :
    analyseSample sample = analyseSampleSpec sample := by
  have ht : 0 < sample.length := List.length_pos.mpr h
  have htQ : (0 : ℚ) < (sample.length : ℚ) := by exact_mod_cast ht
  have hA : (0 < countNul sample ∧
      (sample.length ≤ 1000 * countNul sample ∨ hasDoubleNul sample = true)) ↔
      ((1 : ℚ) / 1000 ≤ (countNul sample : ℚ) / (sample.length : ℚ) ∨
        hasDoubleNul sample = true) := by
    constructor
    · rintro ⟨hn, hle | hdbl⟩
      · left
        rw [div_le_div_iff₀ (by norm_num) htQ, one_mul]
        have : sample.length ≤ countNul sample * 1000 := by omega
        exact_mod_cast this
      · exact Or.inr hdbl
    · rintro (hle | hdbl)
      · rw [div_le_div_iff₀ (by norm_num) htQ, one_mul] at hle
        have h1 : sample.length ≤ countNul sample * 1000 := by exact_mod_cast hle
        exact ⟨by omega, Or.inl (by omega)⟩
      · exact ⟨countNul_pos_of_mem _ (hasDoubleNul_mem_zero _ hdbl), Or.inr hdbl⟩
  have hB : (sample.length < 10 * countControl sample ∧
      10 * countPrintable sample < 9 * sample.length) ↔
      ((1 : ℚ) / 10 < (countControl sample : ℚ) / (sample.length : ℚ) ∧
        (countPrintable sample : ℚ) / (sample.length : ℚ) < (9 : ℚ) / 10) := by
    rw [div_lt_div_iff₀ (by norm_num) htQ, one_mul,
      div_lt_div_iff₀ htQ (by norm_num)]
    constructor
    · rintro ⟨h1, h2⟩
      refine ⟨?_, ?_⟩
      · have : sample.length < countControl sample * 10 := by omega
        exact_mod_cast this
      · have : countPrintable sample * 10 < 9 * sample.length := by omega
        exact_mod_cast this
    · rintro ⟨h1, h2⟩
      have h1' : sample.length < countControl sample * 10 := by exact_mod_cast h1
      have h2' : countPrintable sample * 10 < 9 * sample.length := by exact_mod_cast h2
      exact ⟨by omega, by omega⟩
  have hC : (19 * sample.length ≤ 20 * countPrintable sample ∧
      50 * countControl sample ≤ sample.length) ↔
      ((95 : ℚ) / 100 ≤ (countPrintable sample : ℚ) / (sample.length : ℚ) ∧
        (countControl sample : ℚ) / (sample.length : ℚ) ≤ (2 : ℚ) / 100) := by
    rw [div_le_div_iff₀ (by norm_num) htQ, div_le_div_iff₀ htQ (by norm_num)]
    constructor
    · rintro ⟨h1, h2⟩
      refine ⟨?_, ?_⟩
      · have : 95 * sample.length ≤ countPrintable sample * 100 := by omega
        exact_mod_cast this
      · have : countControl sample * 100 ≤ 2 * sample.length := by omega
        exact_mod_cast this
    · rintro ⟨h1, h2⟩
      have h1' : 95 * sample.length ≤ countPrintable sample * 100 := by exact_mod_cast h1
      have h2' : countControl sample * 100 ≤ 2 * sample.length := by exact_mod_cast h2
      exact ⟨by omega, by omega⟩
  have hD : (5 * countPrintable sample ≤ 3 * sample.length) ↔
      ((countPrintable sample : ℚ) / (sample.length : ℚ) ≤ (60 : ℚ) / 100) := by
    rw [div_le_div_iff₀ htQ (by norm_num)]
    constructor
    · intro h1
      have : countPrintable sample * 100 ≤ 60 * sample.length := by omega
      exact_mod_cast this
    · intro h1
      have h1' : countPrintable sample * 100 ≤ 60 * sample.length := by exact_mod_cast h1
      omega
  simp only [analyseSample, analyseSampleSpec]
  rw [if_neg (by omega : ¬ sample.length = 0)]
  exact if_congr hA rfl (if_congr hB rfl (if_congr hC rfl (if_congr hD rfl rfl)))

/-- C7 witness: the cascade evaluated on the concrete sample `[0, 0]`. -/
theorem c7_histogram_order_witness :
    ([0, 0] : List Nat) ≠ [] ∧ analyseSample [0, 0] = analyseSampleSpec [0, 0] :=
  ⟨by decide, c7_histogram_order [0, 0] (by decide)⟩

/-! ## C3 — the hash error contract -/

/-- C3 counterexample: an open failure other than `NotFound` (here a
permission error) makes `compute_hash` fail with an error of the `Io` kind,
not the `Hashing` kind the claim requires. -/
theorem c3_counterexample :
    isErr (computeFileHash deniedHashFile) = true ∧
    isHashingErr (computeFileHash deniedHashFile) = false ∧
    isIoErr (computeFileHash deniedHashFile) = true :=
  ⟨rfl, rfl, rfl⟩

/-- Every digit below 16 renders as a lowercase hex character. -/
theorem digitChar_mem_hex : ∀ m < 16, Nat.digitChar m ∈ "0123456789abcdef".toList := by
  decide

/-- `hexPad16` always renders exactly 16 characters. -/
theorem hexPad16_length (n : Nat) : (hexPad16 n).length = 16 := by
  simp [hexPad16, String.length]

/-- Every character `hexPad16` renders is a lowercase hex digit. -/
theorem hexPad16_chars (n : Nat) :
    ∀ ch ∈ (hexPad16 n).toList, ch ∈ "0123456789abcdef".toList := by
  intro ch hch
  simp only [hexPad16, String.toList, String.mk, List.mem_map] at hch
  obtain ⟨i, _, rfl⟩ := hch
  exact digitChar_mem_hex _ (Nat.mod_lt _ (by norm_num))

/-- C3 (amended): `compute_hash` returns `None` exactly when the file is
absent (`NotFound`) at open time; any other I/O failure — at open or during
the chunked reads — surfaces as an error of the `Io` kind (not `Hashing`);
on success the result is `Some` of the xxHash64 (seed 0) digest of the full
file contents, rendered lowercase and zero-padded to 16 hex digits. -/
theorem c3_hash_contract (f : HashFile) :
    (f.openOut = .notFound → computeFileHash f = .ok none) ∧
    (computeFileHash f = .ok none → f.openOut = .notFound) ∧
    (∀ msg, f.openOut = .failed msg → computeFileHash f = .error (.ioErr msg)) ∧
    (∀ pre msg, f.openOut = .ok → f.stream = .failAfter pre msg →
      computeFileHash f = .error (.ioErr msg)) ∧
    (∀ e, computeFileHash f = .error e → isIoErr (computeFileHash f) = true) ∧
    (∀ content, f.openOut = .ok → f.stream = .ok content →
      computeFileHash f = .ok (some (hexPad16 (xxh64 0 content))) ∧
      (hexPad16 (xxh64 0 content)).length = 16 ∧
      ∀ ch ∈ (hexPad16 (xxh64 0 content)).toList, ch ∈ "0123456789abcdef".toList) := by
  obtain ⟨op, str⟩ := f
  cases op with
  | notFound =>
    refine ⟨fun _ => rfl, fun _ => rfl, ?_, ?_, ?_, ?_⟩
    · intro msg hmsg; cases hmsg
    · intro pre msg hok; cases hok
    · intro e he; cases str <;> simp [computeFileHash] at he
    · intro content hok; cases hok
  | failed m =>
    refine ⟨?_, ?_, ?_, ?_, ?_, ?_⟩
    · intro hn; cases hn
    · intro he; cases str <;> simp [computeFileHash] at he
    · intro msg hmsg; cases hmsg; rfl
    · intro pre msg hok; cases hok
    · intro e _; rfl
    · intro content hok; cases hok
  | ok =>
    cases str with
    | ok content =>
      refine ⟨?_, ?_, ?_, ?_, ?_, ?_⟩
      · intro hn; cases hn
      · intro he; simp [computeFileHash] at he
      · intro msg hmsg; cases hmsg
      · intro pre msg _ hs; cases hs
      · intro e he; simp [computeFileHash] at he
      · intro c _ hs
        cases hs
        exact ⟨rfl, hexPad16_length _, hexPad16_chars _⟩
    | failAfter pre m =>
      refine ⟨?_, ?_, ?_, ?_, ?_, ?_⟩
      · intro hn; cases hn
      · intro he; simp [computeFileHash] at he
      · intro msg hmsg; cases hmsg
      · intro pre2 msg _ hs; cases hs; rfl
      · intro e _; rfl
      · intro content _ hs; cases hs

/-! ## C1 — record keys -/

/-- C1 counterexample: a record whose stat failed (an `error` info record)
carries no `stat` key, though the claim requires every record — error and
excluded ones included — to carry it. -/
theorem c1_counterexample :
    infoType (processPath statFailFile defaultOptions) = some "error" ∧
    hasKey (processPath statFailFile defaultOptions) "stat" = false :=
  ⟨rfl, rfl⟩

/-- C1 (amended): every record carries `parent`, `filename` and `info`, and
no key outside `parent`/`filename`/`info`/`stat`/`hash`; but `stat` is
carried exactly by the records that reach the preview stage (stat succeeded,
size cap passed, classification succeeded, binary-or-image exclusion did not
fire), and `hash` exactly by those records when hashing is enabled.  Records
with an `error` info from a stat or classification failure, and `excluded`
records (`file_size`, `binary_or_image`), carry no `stat` key. -/
theorem c1_record_keys (f : MFile) (o : MOptions) :
    hasKey (processPath f o) "parent" = true ∧
    hasKey (processPath f o) "filename" = true ∧
    hasKey (processPath f o) "info" = true ∧
    (jsonKeys (processPath f o)).all (fun k => recordKeysAllowed.contains k) = true ∧
    hasKey (processPath f o) "stat" = reachedPreview f o ∧
    hasKey (processPath f o) "hash" = (reachedPreview f o && o.hashingEnabled) := by
  unfold processPath reachedPreview
  cases hstat : f.stat with
  | error msg => simp [hasKey, getKey, lookupStr, jsonKeys, recordKeysAllowed]
  | ok st =>
    by_cases hsz : st.size > o.maxFileSize
    · simp [hsz, hasKey, getKey, lookupStr, jsonKeys, recordKeysAllowed]
    · cases hcl : classifyBinary f with
      | error e => simp [hsz, hasKey, getKey, lookupStr, jsonKeys, recordKeysAllowed]
      | ok binary =>
        by_cases hbin : ((binary || isImageFile f o) && !o.includeBinary) = true
        · simp [hsz, hbin, hasKey, getKey, lookupStr, jsonKeys, recordKeysAllowed]
        · rw [Bool.not_eq_true] at hbin
          cases hh : o.hashingEnabled
          · simp [hsz, hbin, hh, hasKey, getKey, lookupStr, jsonKeys, recordKeysAllowed]
          · simp [hsz, hbin, hh, hasKey, getKey, lookupStr, jsonKeys, recordKeysAllowed,
              objInsert, objInsertKVs]

/-! ## C9 — the truncated flag -/

/-- C9: `read_text_preview` carries the `truncated` key if and only if the
stat-time file size exceeds `min(max_preview_bytes, 5 MiB)` — the flag is
computed from the size cap alone, not from the bytes actually read; the
binary preview's flag, by contrast, compares the file size against the bytes
actually read (`min` of the preview size and the delivered content). -/
theorem c9_truncated_flag (f : MFile) (cap capB : Nat) (enc : Option String) (st : MStat)
    (hstat : f.stat = .ok st) (hopen : f.openOut = .ok) :
    (∃ r, readTextPreview f cap enc = .ok r ∧
      hasKey r "truncated" = decide (st.size > min cap MAX_TEXT_CONTENT_BYTES)) ∧
    (st.size ≤ capB →
      ∃ r, readBinaryPreview f capB = .ok r ∧
        hasKey r "truncated" = decide (st.size >
          min (min st.size (min capB MAX_BINARY_CONTENT_BYTES)) f.content.length)) := by
  constructor
  · simp only [readTextPreview, hstat, hopen]
    by_cases hc : st.size > min cap MAX_TEXT_CONTENT_BYTES
    · rw [if_pos hc]
      refine ⟨_, rfl, ?_⟩
      rw [decide_eq_true hc]
      simp [hasKey, getKey_objInsert_self]
    · rw [if_neg hc]
      refine ⟨_, rfl, ?_⟩
      rw [decide_eq_false hc]
      simp [hasKey, getKey, lookupStr]
  · intro hle
    simp only [readBinaryPreview, hstat, hopen]
    rw [if_neg (by omega)]
    rw [List.length_take]
    by_cases hc : st.size > min (min st.size (min capB MAX_BINARY_CONTENT_BYTES)) f.content.length
    · rw [if_pos hc]
      refine ⟨_, rfl, ?_⟩
      rw [decide_eq_true hc]
      simp [hasKey, getKey_objInsert_self]
    · rw [if_neg hc]
      refine ⟨_, rfl, ?_⟩
      rw [decide_eq_false hc]
      simp [hasKey, getKey, lookupStr]

/-- C9 witness: a file whose stat size is 10 while its reads deliver 4
bytes, with a 7-byte text cap and a 20-byte binary cap. -/
theorem c9_truncated_flag_witness :
    (∃ r, readTextPreview shrunkFile 7 none = .ok r ∧
      hasKey r "truncated" = decide ((10 : Nat) > min 7 MAX_TEXT_CONTENT_BYTES)) ∧
    ((10 : Nat) ≤ 20 →
      ∃ r, readBinaryPreview shrunkFile 20 = .ok r ∧
        hasKey r "truncated" = decide ((10 : Nat) >
          min (min 10 (min 20 MAX_BINARY_CONTENT_BYTES)) shrunkFile.content.length)) :=
  c9_truncated_flag shrunkFile 7 20 none ⟨10, none, none, 0⟩ rfl rfl

/-! ## C4 — the large-binary scenario -/

/-- In the non-excluded branch the binary preview is an `Ok` record of type
`binary`. -/
theorem readBinaryPreview_ok_type (f : MFile) (cap : Nat) (st : MStat)
    (hstat : f.stat = .ok st) (hopen : f.openOut = .ok) (hle : ¬ st.size > cap) :
    ∃ i, readBinaryPreview f cap = Except.ok i ∧ getStr i "type" = some "binary" := by
  simp only [readBinaryPreview, hstat, hopen]
  rw [if_neg hle]
  by_cases hc : st.size > (f.content.take (min st.size (min cap MAX_BINARY_CONTENT_BYTES))).length
  · rw [if_pos hc]
    refine ⟨_, rfl, ?_⟩
    simp only [getStr]
    rw [getKey_objInsert_ne _ _ _ _ (by decide)]
    simp [getKey, lookupStr]
  · rw [if_neg hc]
    exact ⟨_, rfl, by simp [getStr, getKey, lookupStr]⟩

/-- C4 counterexample: in a traversal with `max_file_size = 10 MiB` (and the
preview cap the traversal actually passes — `max_file_size` itself, there
being no separate `max_preview_bytes` option), the 4 MiB PNG's record has
`info.type = "binary"`, not the `excluded`/`binary_too_large` info the claim
requires. -/
theorem c4_counterexample :
    infoType (processPath png4MiB pngOptions) = some "binary" ∧
    infoType (processPath png4MiB pngOptions) ≠ some "excluded" := by
  have hcl : classifyBinary png4MiB = Except.ok true := rfl
  obtain ⟨i, hi, hit⟩ := readBinaryPreview_ok_type png4MiB 10485760
    ⟨4194304, some 0, some 0, 420⟩ rfl rfl (by norm_num)
  have hb : infoType (processPath png4MiB pngOptions) = some "binary" := by
    unfold processPath
    simp only [show png4MiB.stat = Except.ok (⟨4194304, some 0, some 0, 420⟩ : MStat) from rfl,
      hcl, pngOptions]
    rw [if_neg (by norm_num : ¬ (4194304 : Nat) > 10485760)]
    simp [hi, infoType, getKey, lookupStr, getStr_stampInfo_type, hit]
  refine ⟨hb, ?_⟩
  rw [hb]
  intro hcontra
  exact absurd (Option.some.inj hcontra) (by decide)

/-- C4 (amended): the binary preview path reports exclusion whenever
`file_size > max_preview_bytes`, so the claimed record does arise from the
direct `read_binary_preview` API with a 3 MiB cap; a traversal, however,
passes `max_file_size` itself as the preview cap (there is no separate
`max_preview_bytes` traversal option), so with `max_file_size = 10 MiB` the
4 MiB PNG instead yields a `binary` preview record truncated at the 3 MiB
content ceiling, as the counterexample shows. -/
theorem c4_binary_too_large (f : MFile) (cap : Nat) (st : MStat)
    (hstat : f.stat = .ok st) (hgt : st.size > cap) :
    readBinaryPreview f cap = .ok (Json.obj [("type", .str "excluded"),
      ("reason", .str "binary_too_large"), ("size", .nat st.size)]) := by
  simp only [readBinaryPreview, hstat]
  rw [if_pos hgt]

/-- C4 witness: the 4 MiB PNG under the direct API with a 3 MiB cap. -/
theorem c4_binary_too_large_witness :
    readBinaryPreview png4MiB 3145728 = .ok (Json.obj [("type", .str "excluded"),
      ("reason", .str "binary_too_large"), ("size", .nat 4194304)]) :=
  c4_binary_too_large png4MiB 3145728 ⟨4194304, some 0, some 0, 420⟩ rfl (by norm_num)

/-! ## Aggregator lemmas (towards C2 and C8) -/

/-- Pushing one entry appends it to the flat emission stream. -/
theorem flatOf_pushEntry (cs : Nat) (st : AggState) (p : Nat × Json) :
    flatOf (pushEntry cs st p) = flatOf st ++ [p] := by
  unfold pushEntry flatOf
  by_cases hc : cs ≤ st.chunk.length + 1 <;>
    simp [hc, List.flatten_append, List.append_assoc]

/-- Pushing leaves the pending map, the next index and the counters alone. -/
theorem pushEntry_fields (cs : Nat) (st : AggState) (p : Nat × Json) :
    (pushEntry cs st p).pending = st.pending ∧
    (pushEntry cs st p).nextIndex = st.nextIndex ∧
    (pushEntry cs st p).processed = st.processed ∧
    (pushEntry cs st p).failedFiles = st.failedFiles := by
  unfold pushEntry
  by_cases hc : cs ≤ st.chunk.length + 1 <;> simp [hc]

/-- A successful pending lookup exhibits the pair. -/
theorem lookupPending_mem (l : List (Nat × Json)) (k : Nat) (v : Json)
    (h : lookupPending l k = some v) : (k, v) ∈ l := by
  induction l with
  | nil => cases h
  | cons hd tl ih =>
    obtain ⟨k0, v0⟩ := hd
    by_cases hk : k0 = k
    · simp only [lookupPending, if_pos hk] at h
      obtain rfl := Option.some.inj h
      exact hk ▸ List.mem_cons_self _ _
    · simp only [lookupPending, if_neg hk] at h
      exact List.mem_cons_of_mem _ (ih h)

/-- Erasing a key gives a sublist. -/
theorem erasePending_sublist (l : List (Nat × Json)) (k : Nat) :
    (erasePending l k).Sublist l := by
  induction l with
  | nil => simp [erasePending]
  | cons hd tl ih =>
    obtain ⟨k0, v0⟩ := hd
    by_cases hk : k0 = k
    · simp only [erasePending, if_pos hk]
      exact List.sublist_cons_self _ _
    · simp only [erasePending, if_neg hk]
      exact List.Sublist.cons₂ _ ih

/-- Removing a present key is, up to permutation, taking the pair out. -/
theorem erasePending_perm (l : List (Nat × Json)) (k : Nat) (v : Json)
    (h : lookupPending l k = some v) : l.Perm ((k, v) :: erasePending l k) := by
  induction l with
  | nil => cases h
  | cons hd tl ih =>
    obtain ⟨k0, v0⟩ := hd
    by_cases hk : k0 = k
    · simp only [lookupPending, if_pos hk] at h
      obtain rfl := Option.some.inj h
      subst hk
      simp [erasePending]
    · simp only [lookupPending, if_neg hk] at h
      simp only [erasePending, if_neg hk]
      exact ((ih h).cons _).trans (List.Perm.swap _ _ _)

/-- Removing a present key shortens the pending map by one. -/
theorem erasePending_length (l : List (Nat × Json)) (k : Nat) (v : Json)
    (h : lookupPending l k = some v) : (erasePending l k).length + 1 = l.length := by
  have := (erasePending_perm l k v h).length_eq
  simpa using this.symm

/-- Everything in an insertion result is the new pair or an old one. -/
theorem mem_insertPending (l : List (Nat × Json)) (p q : Nat × Json)
    (h : q ∈ insertPending l p) : q = p ∨ q ∈ l := by
  induction l with
  | nil =>
    simp only [insertPending, List.mem_singleton] at h
    exact Or.inl h
  | cons hd tl ih =>
    obtain ⟨k0, v0⟩ := hd
    by_cases h1 : p.1 < k0
    · simp only [insertPending, if_pos h1] at h
      rcases List.mem_cons.mp h with rfl | h2
      · exact Or.inl rfl
      · exact Or.inr h2
    · by_cases h2 : p.1 = k0
      · simp only [insertPending, if_neg h1, if_pos h2] at h
        rcases List.mem_cons.mp h with rfl | h3
        · exact Or.inl rfl
        · exact Or.inr (List.mem_cons_of_mem _ h3)
      · simp only [insertPending, if_neg h1, if_neg h2] at h
        rcases List.mem_cons.mp h with rfl | h3
        · exact Or.inr (List.mem_cons_self _ _)
        · rcases ih h3 with h4 | h4
          · exact Or.inl h4
          · exact Or.inr (List.mem_cons_of_mem _ h4)

/-- Ordered insertion preserves strict key-sortedness. -/
theorem insertPending_sorted (l : List (Nat × Json)) (p : Nat × Json) (h : PWlt l) :
    PWlt (insertPending l p) := by
  induction l with
  | nil => simp [insertPending, PWlt]
  | cons hd tl ih =>
    obtain ⟨k0, v0⟩ := hd
    rw [PWlt, List.pairwise_cons] at h
    obtain ⟨hall, htl⟩ := h
    by_cases h1 : p.1 < k0
    · simp only [insertPending, if_pos h1]
      rw [PWlt, List.pairwise_cons]
      refine ⟨?_, ?_⟩
      · intro q hq
        rcases List.mem_cons.mp hq with rfl | hq2
        · exact h1
        · exact h1.trans (hall q hq2)
      · rw [PWlt, List.pairwise_cons] at *
        exact ⟨hall, htl⟩
    · by_cases h2 : p.1 = k0
      · simp only [insertPending, if_neg h1, if_pos h2]
        rw [PWlt, List.pairwise_cons]
        exact ⟨fun q hq => h2 ▸ hall q hq, htl⟩
      · simp only [insertPending, if_neg h1, if_neg h2]
        rw [PWlt, List.pairwise_cons]
        refine ⟨?_, ih htl⟩
        intro q hq
        rcases mem_insertPending tl p q hq with rfl | hq2
        · omega
        · exact hall q hq2

/-- Inserting a fresh key is, up to permutation, consing the pair. -/
theorem insertPending_perm (l : List (Nat × Json)) (p : Nat × Json)
    (h : p.1 ∉ l.map Prod.fst) : (insertPending l p).Perm (p :: l) := by
  induction l with
  | nil => simp [insertPending]
  | cons hd tl ih =>
    obtain ⟨k0, v0⟩ := hd
    simp only [List.map_cons, List.mem_cons] at h
    push_neg at h
    obtain ⟨hne, hnotin⟩ := h
    by_cases h1 : p.1 < k0
    · simp [insertPending, h1]
    · simp only [insertPending, if_neg h1, if_neg hne]
      exact ((ih hnotin).cons _).trans (List.Perm.swap _ _ _)

/-- What one run of the drain loop preserves and establishes: sortedness of
the pending map, the multiset of records in flight, the counters, the
emitted-prefix-is-an-initial-range invariant, and that pending only
shrinks. -/
theorem drainFuel_spec (cs : Nat) : ∀ (fuel : Nat) (st : AggState),
    st.pending.length ≤ fuel → PWlt st.pending →
    PWlt (drainFuel cs fuel st).pending ∧
    ((flatOf (drainFuel cs fuel st) ++ (drainFuel cs fuel st).pending).Perm
      (flatOf st ++ st.pending)) ∧
    (drainFuel cs fuel st).processed = st.processed ∧
    (drainFuel cs fuel st).failedFiles = st.failedFiles ∧
    ((flatOf st).map Prod.fst = List.range st.nextIndex →
      (flatOf (drainFuel cs fuel st)).map Prod.fst =
        List.range (drainFuel cs fuel st).nextIndex) ∧
    (∀ x ∈ (drainFuel cs fuel st).pending, x ∈ st.pending) := by
  intro fuel
  induction fuel with
  | zero =>
    intro st _ hs
    exact ⟨hs, List.Perm.refl _, rfl, rfl, fun h => h, fun x hx => hx⟩
  | succ n ih =>
    intro st hlen hs
    cases hlk : lookupPending st.pending st.nextIndex with
    | none =>
      have hst : drainFuel cs (n + 1) st = st := by
        simp only [drainFuel, hlk]
      rw [hst]
      exact ⟨hs, List.Perm.refl _, rfl, rfl, fun h => h, fun x hx => hx⟩
    | some e =>
      set stp := pushEntry cs
        { st with pending := erasePending st.pending st.nextIndex,
                  nextIndex := st.nextIndex + 1 } (st.nextIndex, e) with hstp
      have hstep : drainFuel cs (n + 1) st = drainFuel cs n stp := by
        simp only [drainFuel, hlk]
      have hfp : stp.pending = erasePending st.pending st.nextIndex := by
        rw [hstp, (pushEntry_fields _ _ _).1]
      have hfn : stp.nextIndex = st.nextIndex + 1 := by
        rw [hstp, (pushEntry_fields _ _ _).2.1]
      have hfproc : stp.processed = st.processed := by
        rw [hstp, (pushEntry_fields _ _ _).2.2.1]
      have hffail : stp.failedFiles = st.failedFiles := by
        rw [hstp, (pushEntry_fields _ _ _).2.2.2]
      have hflat : flatOf stp = flatOf st ++ [(st.nextIndex, e)] := by
        rw [hstp, flatOf_pushEntry]
        rfl
      have hlen' : stp.pending.length ≤ n := by
        rw [hfp]
        have := erasePending_length st.pending st.nextIndex e hlk
        omega
      have hs' : PWlt stp.pending := by
        rw [hfp]
        exact List.Pairwise.sublist (erasePending_sublist _ _) hs
      obtain ⟨ih1, ih2, ih3, ih4, ih5, ih6⟩ := ih stp hlen' hs'
      rw [hstep]
      refine ⟨ih1, ?_, ?_, ?_, ?_, ?_⟩
      · refine ih2.trans ?_
        rw [hflat, hfp]
        have heq : (flatOf st ++ [(st.nextIndex, e)]) ++ erasePending st.pending st.nextIndex
            = flatOf st ++ ((st.nextIndex, e) :: erasePending st.pending st.nextIndex) := by
          simp [List.append_assoc]
        rw [heq]
        exact List.Perm.append_left _ (erasePending_perm _ _ _ hlk).symm
      · rw [ih3, hfproc]
      · rw [ih4, hffail]
      · intro hrange
        apply ih5
        rw [hflat, List.map_append, hrange, hfn]
        simp [List.range_succ]
      · intro x hx
        have hx2 := ih6 x hx
        rw [hfp] at hx2
        exact (erasePending_sublist _ _).subset hx2

/-- One receive step of the aggregator, seen abstractly: it inserts a fresh
pair and drains, preserving sortedness, extending the initial-range
invariant, and adding exactly the received pair to the records in flight. -/
theorem recvStep_inv (o : AggOptions) (st st3 : AggState) (p : Nat × Json)
    (hpend3 : st3.pending = insertPending st.pending p)
    (hflat3 : flatOf st3 = flatOf st)
    (hnext3 : st3.nextIndex = st.nextIndex)
    (h1 : PWlt st.pending)
    (h2 : (flatOf st).map Prod.fst = List.range st.nextIndex)
    (hfresh : p.1 ∉ st.pending.map Prod.fst) :
    PWlt (drainFuel o.chunkSize st3.pending.length st3).pending ∧
    (flatOf (drainFuel o.chunkSize st3.pending.length st3)).map Prod.fst =
      List.range (drainFuel o.chunkSize st3.pending.length st3).nextIndex ∧
    ((flatOf (drainFuel o.chunkSize st3.pending.length st3) ++
        (drainFuel o.chunkSize st3.pending.length st3).pending).Perm
      (p :: (flatOf st ++ st.pending))) := by
  have hsort3 : PWlt st3.pending := by
    rw [hpend3]
    exact insertPending_sorted _ _ h1
  obtain ⟨d1, d2, _, _, d5, _⟩ :=
    drainFuel_spec o.chunkSize st3.pending.length st3 (le_refl _) hsort3
  refine ⟨d1, d5 (by rw [hflat3, hnext3]; exact h2), ?_⟩
  refine d2.trans ?_
  rw [hflat3, hpend3]
  refine (List.Perm.append_left _ (insertPending_perm _ _ hfresh)).trans ?_
  exact List.perm_middle

/-- The aggregator's receive loop, folded over the whole arrival sequence:
under distinct submission indices it keeps the pending map sorted, keeps the
emitted prefix an initial range of indices, and keeps the records in flight
a permutation of the records received. -/
theorem foldl_recvStep_spec (o : AggOptions) : ∀ (inputs : List (Nat × Json)) (st : AggState)
    (done : List (Nat × Json)),
    PWlt st.pending →
    (flatOf st).map Prod.fst = List.range st.nextIndex →
    (flatOf st ++ st.pending).Perm done →
    ((done ++ inputs).map Prod.fst).Nodup →
    PWlt ((inputs.foldl (recvStep o) st)).pending ∧
    (flatOf (inputs.foldl (recvStep o) st)).map Prod.fst =
      List.range (inputs.foldl (recvStep o) st).nextIndex ∧
    ((flatOf (inputs.foldl (recvStep o) st) ++ (inputs.foldl (recvStep o) st).pending).Perm
      (done ++ inputs)) := by
  intro inputs
  induction inputs with
  | nil =>
    intro st done h1 h2 h3 _
    simpa using ⟨h1, h2, h3⟩
  | cons p rest ih =>
    intro st done h1 h2 h3 h4
    have hfresh : p.1 ∉ st.pending.map Prod.fst := by
      intro hx
      have hmem : p.1 ∈ (flatOf st ++ st.pending).map Prod.fst := by
        rw [List.map_append]
        exact List.mem_append_right _ hx
      have hd : p.1 ∈ done.map Prod.fst := ((h3.map Prod.fst).mem_iff).mp hmem
      rw [List.map_append, List.nodup_append] at h4
      exact h4.2.2 hd (by simp)
    rw [List.foldl_cons]
    have hnodup' : (((done ++ [p]) ++ rest).map Prod.fst).Nodup := by
      rw [List.append_assoc]
      simpa using h4
    cases hfe : failedEntryOf o.root p.2 with
    | none =>
      have hrs : recvStep o st p = drainFuel o.chunkSize
          (insertPending st.pending p).length
          { st with processed := st.processed + 1,
                    pending := insertPending st.pending p } := by
        unfold recvStep
        rw [hfe]
      obtain ⟨s1, s2, s3⟩ := recvStep_inv o st
        { st with processed := st.processed + 1,
                  pending := insertPending st.pending p } p rfl rfl rfl h1 h2 hfresh
      rw [hrs]
      obtain ⟨r1, r2, r3⟩ := ih _ (done ++ [p]) s1 s2
        (s3.trans ((h3.cons p).trans (List.perm_append_singleton p done).symm)) hnodup'
      refine ⟨r1, r2, ?_⟩
      have hre : (done ++ [p]) ++ rest = done ++ p :: rest := by
        rw [List.append_assoc]
        rfl
      rw [← hre]
      exact r3
    | some fj =>
      have hrs : recvStep o st p = drainFuel o.chunkSize
          (insertPending st.pending p).length
          { st with processed := st.processed + 1,
                    failedFiles := st.failedFiles ++ [fj],
                    pending := insertPending st.pending p } := by
        unfold recvStep
        rw [hfe]
      obtain ⟨s1, s2, s3⟩ := recvStep_inv o st
        { st with processed := st.processed + 1,
                  failedFiles := st.failedFiles ++ [fj],
                  pending := insertPending st.pending p } p rfl rfl rfl h1 h2 hfresh
      rw [hrs]
      obtain ⟨r1, r2, r3⟩ := ih _ (done ++ [p]) s1 s2
        (s3.trans ((h3.cons p).trans (List.perm_append_singleton p done).symm)) hnodup'
      refine ⟨r1, r2, ?_⟩
      have hre : (done ++ [p]) ++ rest = done ++ p :: rest := by
        rw [List.append_assoc]
        rfl
      rw [← hre]
      exact r3

/-- The drain loop never touches `processed`. -/
theorem drainFuel_processed (cs : Nat) : ∀ (fuel : Nat) (st : AggState),
    (drainFuel cs fuel st).processed = st.processed := by
  intro fuel
  induction fuel with
  | zero => intro st; rfl
  | succ n ih =>
    intro st
    cases hlk : lookupPending st.pending st.nextIndex with
    | none =>
      have h : drainFuel cs (n + 1) st = st := by simp only [drainFuel, hlk]
      rw [h]
    | some e =>
      have h : drainFuel cs (n + 1) st = drainFuel cs n (pushEntry cs
          { st with pending := erasePending st.pending st.nextIndex,
                    nextIndex := st.nextIndex + 1 } (st.nextIndex, e)) := by
        simp only [drainFuel, hlk]
      rw [h, ih, (pushEntry_fields _ _ _).2.2.1]

/-- Each received record increments `processed` by exactly one. -/
theorem foldl_recvStep_processed (o : AggOptions) :
    ∀ (inputs : List (Nat × Json)) (st : AggState),
    (inputs.foldl (recvStep o) st).processed = st.processed + inputs.length := by
  intro inputs
  induction inputs with
  | nil => intro st; simp
  | cons p rest ih =>
    intro st
    rw [List.foldl_cons, ih]
    have hone : (recvStep o st p).processed = st.processed + 1 := by
      unfold recvStep
      cases hfe : failedEntryOf o.root p.2 <;> rw [drainFuel_processed]
    rw [hone]
    simp only [List.length_cons]
    omega

/-- Folding `pushEntry` over a list appends it to the flat stream and leaves
the counters alone. -/
theorem foldl_pushEntry_spec (cs : Nat) : ∀ (l : List (Nat × Json)) (st : AggState),
    flatOf (l.foldl (pushEntry cs) st) = flatOf st ++ l ∧
    (l.foldl (pushEntry cs) st).processed = st.processed ∧
    (l.foldl (pushEntry cs) st).failedFiles = st.failedFiles := by
  intro l
  induction l with
  | nil => intro st; simp
  | cons p rest ih =>
    intro st
    rw [List.foldl_cons]
    obtain ⟨h1, h2, h3⟩ := ih (pushEntry cs st p)
    obtain ⟨_, _, h4, h5⟩ := pushEntry_fields cs st p
    refine ⟨?_, by rw [h2, h4], by rw [h3, h5]⟩
    rw [h1, flatOf_pushEntry]
    simp [List.append_assoc]

/-- The flush phase empties the pending map into the flat stream. -/
theorem flushPending_spec (cs : Nat) (st : AggState) :
    flatOf (flushPending cs st) = flatOf st ++ st.pending ∧
    (flushPending cs st).processed = st.processed ∧
    (flushPending cs st).failedFiles = st.failedFiles := by
  unfold flushPending
  obtain ⟨h1, h2, h3⟩ := foldl_pushEntry_spec cs st.pending { st with pending := [] }
  exact ⟨by rw [h1]; rfl, h2, h3⟩

/-- After the final emission the batches hold exactly the flat stream. -/
theorem emitLast_spec (st : AggState) :
    (emitLast st).batches.flatten = flatOf st ∧
    (emitLast st).processed = st.processed ∧
    (emitLast st).failedFiles = st.failedFiles := by
  unfold emitLast flatOf
  by_cases hc : st.chunk.isEmpty
  · have he : st.chunk = [] := List.isEmpty_iff.mp hc
    simp [hc, he]
  · simp [hc, List.flatten_append]

/-- The Summary's `total_files` field. -/
theorem getKey_summaryJson_total (o : AggOptions) (st : AggState) (b : Bool) :
    getKey (summaryJson o st b) "total_files" = some (Json.nat (o.included + o.excluded)) := by
  simp only [summaryJson]
  by_cases hh : o.hashingEnabled
  · rw [if_pos hh, getKey_objInsert_ne _ _ _ _ (by decide)]
    simp [getKey, lookupStr]
  · rw [if_neg hh]
    simp [getKey, lookupStr]

/-- The Summary's `processed_files` field. -/
theorem getKey_summaryJson_processed (o : AggOptions) (st : AggState) (b : Bool) :
    getKey (summaryJson o st b) "processed_files" = some (Json.nat st.processed) := by
  simp only [summaryJson]
  by_cases hh : o.hashingEnabled
  · rw [if_pos hh, getKey_objInsert_ne _ _ _ _ (by decide)]
    simp [getKey, lookupStr]
  · rw [if_neg hh]
    simp [getKey, lookupStr]

/-- The Summary's `failed_files` field. -/
theorem getKey_summaryJson_failed (o : AggOptions) (st : AggState) (b : Bool) :
    getKey (summaryJson o st b) "failed_files" = some (Json.arr st.failedFiles) := by
  simp only [summaryJson]
  by_cases hh : o.hashingEnabled
  · rw [if_pos hh, getKey_objInsert_ne _ _ _ _ (by decide)]
    simp [getKey, lookupStr]
  · rw [if_neg hh]
    simp [getKey, lookupStr]

/-! ## C2 — order restoration -/

/-- C2: whenever the workers hand the aggregator records with pairwise
distinct submission indices — as the traversal does, one record per
enumerated file — the concatenation of the emitted `Entries` batches (all
records the consumer receives before the Summary) is a permutation of the
received records whose index sequence is strictly ascending, regardless of
the arrival order. -/
theorem c2_ordered_emission (o : AggOptions) (inputs : List (Nat × Json)) (flag : Bool)
    (hnodup : (inputs.map Prod.fst).Nodup) :
    List.Sorted (· < ·) (((aggregateEntries o inputs flag).1.flatten).map Prod.fst) ∧
    ((aggregateEntries o inputs flag).1.flatten).Perm inputs := by
  obtain ⟨hs1, hr1, hp1⟩ := foldl_recvStep_spec o inputs ⟨[], 0, [], [], 0, []⟩ []
    List.Pairwise.nil (by simp [flatOf]) (by simp [flatOf]) (by simpa using hnodup)
  have hout : (aggregateEntries o inputs flag).1.flatten =
      flatOf (inputs.foldl (recvStep o) ⟨[], 0, [], [], 0, []⟩) ++
      (inputs.foldl (recvStep o) ⟨[], 0, [], [], 0, []⟩).pending := by
    show (emitLast (flushPending o.chunkSize _)).batches.flatten = _
    rw [(emitLast_spec _).1, (flushPending_spec _ _).1]
  rw [hout]
  simp only [List.nil_append] at hp1
  have hperm : ((flatOf (inputs.foldl (recvStep o) ⟨[], 0, [], [], 0, []⟩) ++
      (inputs.foldl (recvStep o) ⟨[], 0, [], [], 0, []⟩).pending).map Prod.fst).Perm
      (inputs.map Prod.fst) := hp1.map Prod.fst
  have hnodup2 : ((flatOf (inputs.foldl (recvStep o) ⟨[], 0, [], [], 0, []⟩) ++
      (inputs.foldl (recvStep o) ⟨[], 0, [], [], 0, []⟩).pending).map Prod.fst).Nodup :=
    hperm.nodup_iff.mpr hnodup
  refine ⟨?_, hp1⟩
  rw [List.map_append, hr1]
  rw [List.map_append, hr1] at hnodup2
  rw [List.Sorted, List.pairwise_append]
  refine ⟨List.pairwise_lt_range _, ?_, ?_⟩
  · exact List.Pairwise.map Prod.fst (fun a b hab => hab) hs1
  · intro a ha b hb
    have ha' := List.mem_range.mp ha
    rw [List.nodup_append] at hnodup2
    have hble : (inputs.foldl (recvStep o) ⟨[], 0, [], [], 0, []⟩).nextIndex ≤ b := by
      by_contra hlt
      push_neg at hlt
      exact hnodup2.2.2 (List.mem_range.mpr hlt) hb
    omega

/-- C2 witness: a two-record run arriving out of order. -/
theorem c2_ordered_emission_witness :
    (([(1, Json.null), (0, Json.bool true)].map Prod.fst).Nodup) ∧
    (List.Sorted (· < ·)
      (((aggregateEntries ⟨"/r", 2, 2, 0, false⟩
          [(1, Json.null), (0, Json.bool true)] false).1.flatten).map Prod.fst) ∧
     ((aggregateEntries ⟨"/r", 2, 2, 0, false⟩
          [(1, Json.null), (0, Json.bool true)] false).1.flatten).Perm
       [(1, Json.null), (0, Json.bool true)]) :=
  ⟨by decide, c2_ordered_emission ⟨"/r", 2, 2, 0, false⟩
    [(1, Json.null), (0, Json.bool true)] false (by decide)⟩

/-! ## C8 — the summary counters -/

/-- C8: in every run the Summary satisfies
`total_files = included_files + excluded_files` (the Walker's counters), and
since the aggregator receives at most one record per gathered file
(`inputs.length ≤ included`), also
`processed_files ≤ total_files + failed_files.length`. -/
theorem c8_summary_counts (o : AggOptions) (inputs : List (Nat × Json)) (flag : Bool)
    (h : inputs.length ≤ o.included) :
    getNat (aggregateEntries o inputs flag).2 "total_files" = some (o.included + o.excluded) ∧
    ∃ pr fl, getNat (aggregateEntries o inputs flag).2 "processed_files" = some pr ∧
      getKey (aggregateEntries o inputs flag).2 "failed_files" = some (Json.arr fl) ∧
      pr ≤ (o.included + o.excluded) + fl.length := by
  have hagg : (aggregateEntries o inputs flag).2 =
      summaryJson o (emitLast (flushPending o.chunkSize
        (inputs.foldl (recvStep o) ⟨[], 0, [], [], 0, []⟩))) flag := rfl
  rw [hagg]
  refine ⟨?_, (emitLast (flushPending o.chunkSize
      (inputs.foldl (recvStep o) ⟨[], 0, [], [], 0, []⟩))).processed,
    (emitLast (flushPending o.chunkSize
      (inputs.foldl (recvStep o) ⟨[], 0, [], [], 0, []⟩))).failedFiles, ?_, ?_, ?_⟩
  · rw [getNat, getKey_summaryJson_total]
  · rw [getNat, getKey_summaryJson_processed]
  · rw [getKey_summaryJson_failed]
  · have hp : (emitLast (flushPending o.chunkSize
        (inputs.foldl (recvStep o) ⟨[], 0, [], [], 0, []⟩))).processed = inputs.length := by
      rw [(emitLast_spec _).2.1, (flushPending_spec _ _).2.1, foldl_recvStep_processed]
      simp
    rw [hp]
    omega

/-- C8 witness: a one-record run under walker counters `included = 3`,
`excluded = 1`. -/
theorem c8_summary_counts_witness :
    getNat (aggregateEntries ⟨"/r", 2, 3, 1, true⟩ [(0, Json.null)] false).2 "total_files" =
      some (3 + 1) ∧
    ∃ pr fl, getNat (aggregateEntries ⟨"/r", 2, 3, 1, true⟩ [(0, Json.null)] false).2
        "processed_files" = some pr ∧
      getKey (aggregateEntries ⟨"/r", 2, 3, 1, true⟩ [(0, Json.null)] false).2
        "failed_files" = some (Json.arr fl) ∧
      pr ≤ (3 + 1) + fl.length :=
  c8_summary_counts ⟨"/r", 2, 3, 1, true⟩ [(0, Json.null)] false (by norm_num)

end Samuraizer
